import Mathlib

/-!
# Verification of the noteflow-v2 pipeline core

A shallow embedding of the parts of the noteflow-v2 code base that the
specification's claims are about:

* the data model (`src/core/models/enums.py`, `job.py`, `step.py`,
  `artifact.py`),
* the processor registry with Kahn's-algorithm dependency resolution
  (`src/core/plugins/registry.py`),
* the router (`src/core/engine/router.py`),
* the executor's step execution, rollback and revert paths
  (`src/core/engine/executor.py`),
* the execution context's file operations, commit and rollback
  (`src/core/engine/context.py`),
* the watch configuration's pattern filter
  (`src/core/watchers/watch_config.py`).

Python dictionaries are modelled by association lists (preserving insertion
order, which Python guarantees), the file system by a function from path
strings to optional file contents, `datetime` fields are not modelled (no
claim mentions them), and exceptions by `Option`/`Except` or by explicit
error oracles where the exception source is outside the modelled code.
-/

namespace NoteFlow

/-! ## Enumerations (src/core/models/enums.py) -/

/-- Status of a job in the pipeline (`JobStatus`). -/
inductive JobStatus where
  | pending | processing | awaiting_input | completed
  | failed | cancelled | reverting | reverted
deriving DecidableEq, Repr

/-- Status of a processing step (`StepStatus`). -/
inductive StepStatus where
  | pending | running | awaiting_input | completed | failed | skipped | reverted
deriving DecidableEq, Repr

/-- Type of artifact created by a processor (`ArtifactType`). -/
inductive ArtifactType where
  | file_create | file_modify | file_delete | file_move
  | frontmatter_update | external_api_create | external_api_modify | metadata
deriving DecidableEq, Repr

/-- Status of an artifact (`ArtifactStatus`). -/
inductive ArtifactStatus where
  | pending | created | reverted | failed | orphaned | irreversible
deriving DecidableEq, Repr

/-- How reversible an artifact is (`ReversibilityLevel`). -/
inductive ReversibilityLevel where
  | fully_reversible | partially_reversible | irreversible | manual_revert
deriving DecidableEq, Repr

/-! ## Artifact (src/core/models/artifact.py) -/

/-- One tracked side effect (`Artifact`).  Identifier and timestamps are kept
only where a claim needs them; `before_state`/`after_state` are the opaque
payloads used for undo. -/
structure Artifact where
  job_id : String := ""
  step_name : String := ""
  artifact_type : ArtifactType
  target : String
  before_state : Option String := none
  after_state : Option String := none
  status : ArtifactStatus := ArtifactStatus.pending
  reversibility : ReversibilityLevel := ReversibilityLevel.fully_reversible
deriving DecidableEq, Repr

/-- Model of `Artifact.mark_created`. -/
def Artifact.mark_created (a : Artifact) : Artifact :=
  { a with status := ArtifactStatus.created }

/-- Model of `Artifact.mark_irreversible`. -/
def Artifact.mark_irreversible (a : Artifact) : Artifact :=
  { a with status := ArtifactStatus.irreversible,
           reversibility := ReversibilityLevel.irreversible }

/-- Model of `Artifact.can_revert`: `status = created ∧ reversibility ≠ irreversible`. -/
def Artifact.can_revert (a : Artifact) : Bool :=
  a.status == ArtifactStatus.created
    && !(a.reversibility == ReversibilityLevel.irreversible)

/-! ## StepResult (src/core/models/step.py)

The job's data bag and a step's `output_data` map string keys to opaque JSON
values; the values are modelled by `String`. -/

/-- Result of executing one processing step (`StepResult`). -/
structure StepResult where
  job_id : String
  step_name : String
  status : StepStatus := StepStatus.pending
  artifacts : List Artifact := []
  output_data : List (String × String) := []
  error_message : Option String := none
  error_traceback : Option String := none
  user_input : Option (List (String × String)) := none
  revert_error : Option String := none
deriving DecidableEq, Repr

/-- Model of `StepResult.start`. -/
def StepResult.start (r : StepResult) : StepResult :=
  { r with status := StepStatus.running }

/-- Model of `StepResult.complete`. -/
def StepResult.complete (r : StepResult) (output : List (String × String)) :
    StepResult :=
  { r with status := StepStatus.completed,
           output_data := if output.isEmpty then r.output_data else output }

/-- Model of `StepResult.fail`. -/
def StepResult.fail (r : StepResult) (error : String) (tb : Option String) :
    StepResult :=
  { r with status := StepStatus.failed, error_message := some error,
           error_traceback := tb }

/-- Model of `StepResult.skip`: sets status `skipped` and records the reason under the
`skip_reason` key of `output_data` (when a reason is given). -/
def StepResult.skip (r : StepResult) (reason : Option String) : StepResult :=
  { r with status := StepStatus.skipped,
           output_data := match reason with
             | some s => r.output_data ++ [("skip_reason", s)]
             | none => r.output_data }

/-- Model of `StepResult.await_input`. -/
def StepResult.await_input (r : StepResult) : StepResult :=
  { r with status := StepStatus.awaiting_input }

/-- Model of `StepResult.mark_reverted`. -/
def StepResult.mark_reverted (r : StepResult) : StepResult :=
  { r with status := StepStatus.reverted }

/-- Model of `StepResult.can_revert`: completed and every artifact revertible. -/
def StepResult.can_revert (r : StepResult) : Bool :=
  r.status == StepStatus.completed && r.artifacts.all (·.can_revert)

/-- Model of the Python dict merge `{**a, **b}` (equally of `a.update(b)`):
keys of `a` keep their positions (values overridden by `b` where present),
keys of `b` not in `a` are appended in `b`'s order. -/
def dictMerge (a b : List (String × String)) : List (String × String) :=
  (a.map (fun kv =>
    match b.find? (fun kv2 => kv2.1 == kv.1) with
    | some kv2 => (kv.1, kv2.2)
    | none => kv))
  ++ b.filter (fun kv2 => !(a.any (fun kv => kv.1 == kv2.1)))

/-! ## Job (src/core/models/job.py) -/

/-- The primary unit of work (`Job`).  The `datetime` fields and the static
source metadata play no role in any claim and are not modelled. -/
structure Job where
  id : String := ""
  status : JobStatus := JobStatus.pending
  current_step : Option String := none
  data : List (String × String) := []
  history : List StepResult := []
  error_message : Option String := none
deriving DecidableEq, Repr

/-- Model of `Job.start_processing`. -/
def Job.start_processing (j : Job) (step_name : String) : Job :=
  { j with status := JobStatus.processing, current_step := some step_name }

/-- Model of `Job.await_input`. -/
def Job.await_input (j : Job) (step_name : String) : Job :=
  { j with status := JobStatus.awaiting_input, current_step := some step_name }

/-- Model of `Job.complete`. -/
def Job.complete (j : Job) : Job :=
  { j with status := JobStatus.completed, current_step := none }

/-- Model of `Job.fail`: sets status and error message; `current_step` is untouched. -/
def Job.fail (j : Job) (error : String) : Job :=
  { j with status := JobStatus.failed, error_message := some error }

/-- Model of `Job.cancel`: sets status; `current_step` is untouched. -/
def Job.cancel (j : Job) : Job :=
  { j with status := JobStatus.cancelled }

/-- Model of `Job.start_revert`: sets status; `current_step` is untouched. -/
def Job.start_revert (j : Job) : Job :=
  { j with status := JobStatus.reverting }

/-- Model of `Job.complete_revert`: `reverted` when no target step is given, else
`pending`; `current_step` becomes the target. -/
def Job.complete_revert (j : Job) (to_step : Option String) : Job :=
  { j with status := match to_step with
             | none => JobStatus.reverted
             | some _ => JobStatus.pending,
           current_step := to_step }

/-- Model of `Job.add_step_result`. -/
def Job.add_step_result (j : Job) (r : StepResult) : Job :=
  { j with history := j.history ++ [r] }

/-- Model of `Job.get_step_result`: most recent result for a step name. -/
def Job.get_step_result (j : Job) (step_name : String) : Option StepResult :=
  j.history.reverse.find? (fun r => r.step_name == step_name)

/-- Model of `Job.get_completed_steps`: names of history entries with status
`completed`. -/
def Job.get_completed_steps (j : Job) : List String :=
  (j.history.filter (fun r => r.status == StepStatus.completed)).map
    (·.step_name)

/-- Model of `Job.has_completed_step`. -/
def Job.has_completed_step (j : Job) (step_name : String) : Bool :=
  j.get_completed_steps.contains step_name

/-- Model of `Job.merge_data`: shallow merge of a step's output into the
data bag (`dict.update`). -/
def Job.merge_data (j : Job) (upd : List (String × String)) : Job :=
  { j with data := dictMerge j.data upd }

/-! ## Processors and the registry (src/core/plugins/base.py, registry.py) -/

/-- The metadata of a processor (`Processor` class attributes).  The dynamic
methods (`should_process`, `process`, …) are black boxes per the plugin
contract and are abstracted by oracles at the call sites that use them. -/
structure ProcSpec where
  name : String
  display_name : String := ""
  description : String := ""
  requires : List String := []
  has_ui : Bool := false
  requires_input : String := "never"
  can_skip : Bool := true
  auto_revert_on_error : Bool := true
deriving DecidableEq, Repr

/-- A step definition derived from processor metadata (`StepDefinition`). -/
structure StepDefinition where
  name : String
  display_name : String := ""
  description : String := ""
  requires : List String := []
  has_ui : Bool := false
  requires_input : String := "never"
  can_skip : Bool := true
  auto_revert_on_error : Bool := true
deriving DecidableEq, Repr

/-- Model of `Processor.to_definition`. -/
def ProcSpec.to_definition (p : ProcSpec) : StepDefinition :=
  { name := p.name, display_name := p.display_name,
    description := p.description, requires := p.requires,
    has_ui := p.has_ui, requires_input := p.requires_input,
    can_skip := p.can_skip, auto_revert_on_error := p.auto_revert_on_error }

/-- The registry's two dictionaries (`ProcessorRegistry._processors` and
`_definitions`), modelled as insertion-ordered association lists. -/
structure Registry where
  processors : List (String × ProcSpec) := []
  definitions : List (String × StepDefinition) := []
deriving DecidableEq, Repr

/-- Errors raised by `ProcessorRegistry.register` (both are `ValueError`). -/
inductive RegisterError where
  | noName
  | duplicate (name : String)
deriving DecidableEq, Repr

/-- Model of `ProcessorRegistry.register`, returned as (possibly updated) registry
paired with the raised error, if any.  Python raises before touching either
dictionary, so on error the returned registry is the input. -/
def Registry.register (reg : Registry) (p : ProcSpec) :
    Registry × Option RegisterError :=
  if p.name == "" then (reg, some RegisterError.noName)
  else if reg.processors.any (fun kv => kv.1 == p.name) then
    (reg, some (RegisterError.duplicate p.name))
  else
    ({ processors := reg.processors ++ [(p.name, p)],
       definitions := reg.definitions ++ [(p.name, p.to_definition)] }, none)

/-- Model of `ProcessorRegistry.get`. -/
def Registry.get (reg : Registry) (name : String) : Option ProcSpec :=
  match reg.processors.find? (fun kv => kv.1 == name) with
  | some kv => some kv.2
  | none => none

/-- Model of `ProcessorRegistry.get_dependencies`: the processor's `requires` list, or
`[]` when the name is not registered. -/
def Registry.get_dependencies (reg : Registry) (name : String) : List String :=
  match reg.get name with
  | some p => p.requires
  | none => []

/-! ### `get_execution_order` (registry.py lines 174-217)

The graph-building loop and Kahn's algorithm.  For a (duplicate-free) list
`P` of names, the Python dictionaries `in_degree` and `graph` are modelled by
functions out of `String` that agree with the dictionaries on the keys `P`
(the only names the algorithm ever looks up). -/

/-- The value of `in_degree[p]` after the graph-building loop: one increment
per occurrence of `p` in `processors` and per dependency of `p` that is in
`processors`. -/
def initDeg (reg : Registry) (P : List String) (p : String) : Int :=
  (P.count p : Int)
    * (((reg.get_dependencies p).filter (fun d => P.contains d)).length : Int)

/-- The value of `graph[d]` after the graph-building loop: for each `proc` in
`processors` (in order) and each occurrence of `d` in its dependency list,
one entry `proc` (the guard `dep in processors` makes this `[]` for
`d ∉ processors`). -/
def graphOf (reg : Registry) (P : List String) (d : String) : List String :=
  if P.contains d then
    P.flatMap (fun proc =>
      (reg.get_dependencies proc).filterMap
        (fun dep => if dep == d then some proc else none))
  else []

/-- The inner loop `for dependent in graph[node]`: decrement the dependent's
in-degree and enqueue it when the in-degree reaches zero. -/
def processEdges (inDeg : String → Int) (queue : List String) :
    List String → (String → Int) × List String
  | [] => (inDeg, queue)
  | dep :: rest =>
      let inDeg' := fun x => if x = dep then inDeg x - 1 else inDeg x
      let queue' := if inDeg' dep = 0 then queue ++ [dep] else queue
      processEdges inDeg' queue' rest

/-- The `while queue` loop of Kahn's algorithm.  Each iteration pops the
front of the queue, appends it to the result and processes its outgoing
edges.  The loop is fuel-indexed; `get_execution_order` supplies fuel
`2 * |processors| + 1`, which always drains the queue: every iteration
removes one queue entry and each name is enqueued at most once after its
in-degree reaches zero, so the number of iterations never exceeds
`|initial queue| + |processors|`.  Returns the result together with the
remaining queue (always `[]` with sufficient fuel). -/
def kahnLoop (g : String → List String) :
    Nat → List String → (String → Int) → List String →
    List String × List String
  | 0, queue, _, result => (result, queue)
  | _ + 1, [], _, result => (result, [])
  | fuel + 1, node :: rest, inDeg, result =>
      let st := processEdges inDeg rest (g node)
      kahnLoop g fuel st.2 st.1 (result ++ [node])

/-- Model of `ProcessorRegistry.get_execution_order`: topological sort of `processors`
by Kahn's algorithm; `none` models the `ValueError` raised when not every
name ends up in the result (a circular dependency). -/
def Registry.get_execution_order (reg : Registry) (P : List String) :
    Option (List String) :=
  let st := kahnLoop (graphOf reg P) (2 * P.length + 1)
    (P.filter (fun p => initDeg reg P p == 0)) (initDeg reg P) []
  if st.1.length == P.length then some st.1 else none

/-! ### Dependency relation and the ordering property claimed for
`get_execution_order` -/

/-- The dependency edge relation restricted to a name list: `d` is a
`requires`-entry of `p` and both are in the list.  The `requires` relation
restricted to `P` is acyclic exactly when this relation is well-founded. -/
def Registry.EdgeIn (reg : Registry) (P : List String) (d p : String) : Prop :=
  d ∈ reg.get_dependencies p ∧ d ∈ P ∧ p ∈ P

/-- All of `p`'s dependencies that lie in `P` are already in `result`. -/
def DepsDone (reg : Registry) (P result : List String) (p : String) : Prop :=
  ∀ d ∈ reg.get_dependencies p, d ∈ P → d ∈ result

/-- Every element of `l` appears after every element of its `requires` list
that is in `P`. -/
def DepOrdered (reg : Registry) (P l : List String) : Prop :=
  ∀ (j : Nat) (p : String), l[j]? = some p →
    ∀ d ∈ reg.get_dependencies p, d ∈ P →
      ∃ i : Nat, i < j ∧ l[i]? = some d

/-! ### List helper lemmas -/

lemma length_filter_eq_length_iff {α} (l : List α) (q : α → Bool) :
    (l.filter q).length = l.length ↔ ∀ x ∈ l, q x := by
  induction l with
  | nil => simp
  | cons x xs ih =>
    by_cases h : q x
    · simp [List.filter_cons, h, ih]
    · simp only [List.filter_cons, h, if_false, Bool.false_eq_true,
        List.length_cons]
      constructor
      · intro hlen
        exfalso
        have := List.length_filter_le q xs
        omega
      · intro hall
        exact absurd (hall x (by simp)) (by simp [h])

lemma filter_filter_and {α} (l : List α) (p q : α → Bool) :
    (l.filter p).filter q = l.filter (fun a => p a && q a) := by
  induction l with
  | nil => rfl
  | cons x xs ih =>
    by_cases h : p x <;> by_cases h2 : q x <;>
      simp [List.filter_cons, h, h2, ih]

lemma nodup_subset_length {l P : List String} (hl : l.Nodup)
    (hsub : ∀ x ∈ l, x ∈ P) : l.length ≤ P.length :=
  (hl.subperm hsub).length_le

lemma contains_eq_true_iff {l : List String} {a : String} :
    l.contains a = true ↔ a ∈ l := List.elem_iff

lemma contains_eq_false_iff {l : List String} {a : String} :
    l.contains a = false ↔ a ∉ l := by
  constructor
  · intro h hc
    rw [contains_eq_true_iff.mpr hc] at h
    cases h
  · intro h
    cases hc : l.contains a
    · rfl
    · exact absurd (contains_eq_true_iff.mp hc) h

/-- The in-degree difference formula is zero exactly when every in-`P`
dependency has been emitted. -/
lemma degFormula_zero_iff (reg : Registry) (P result : List String)
    (hsub : ∀ x ∈ result, x ∈ P) (p : String) :
    ((((reg.get_dependencies p).filter (fun d => P.contains d)).length : Int)
      - (((reg.get_dependencies p).filter
          (fun d => result.contains d)).length : Int) = 0)
    ↔ DepsDone reg P result p := by
  have hqr : ∀ x : String, (result.contains x) = true →
      (P.contains x) = true := by
    intro x hx
    exact List.elem_iff.mpr (hsub x (List.elem_iff.mp hx))
  have hre : (reg.get_dependencies p).filter (fun d => result.contains d)
      = ((reg.get_dependencies p).filter (fun d => P.contains d)).filter
          (fun d => result.contains d) := by
    rw [filter_filter_and]
    apply List.filter_congr
    intro x _
    cases hq : result.contains x
    · simp [hq]
    · rw [hqr x hq]
      simp
  rw [hre]
  have hiff := length_filter_eq_length_iff
    ((reg.get_dependencies p).filter (fun d => P.contains d))
    (fun d => result.contains d)
  have hle := (List.length_filter_le (fun d => result.contains d)
    ((reg.get_dependencies p).filter (fun d => P.contains d)))
  constructor
  · intro h0
    have : (((reg.get_dependencies p).filter (fun d => P.contains d)).filter
        (fun d => result.contains d)).length
        = ((reg.get_dependencies p).filter (fun d => P.contains d)).length := by
      omega
    intro d hd hdP
    have := hiff.mp this d
      (List.mem_filter.mpr ⟨hd, List.elem_iff.mpr hdP⟩)
    exact List.elem_iff.mp this
  · intro hdone
    have : ∀ x ∈ (reg.get_dependencies p).filter (fun d => P.contains d),
        (result.contains x) = true := by
      intro x hx
      obtain ⟨hxl, hxP⟩ := List.mem_filter.mp hx
      exact List.elem_iff.mpr (hdone x hxl (List.elem_iff.mp hxP))
    have := hiff.mpr this
    omega

/-- The in-degree difference formula is never negative. -/
lemma degFormula_nonneg (reg : Registry) (P result : List String)
    (hsub : ∀ x ∈ result, x ∈ P) (p : String) :
    0 ≤ (((reg.get_dependencies p).filter (fun d => P.contains d)).length : Int)
      - (((reg.get_dependencies p).filter
          (fun d => result.contains d)).length : Int) := by
  have hmono := List.monotone_filter_right (reg.get_dependencies p)
    (p := fun d => result.contains d) (q := fun d => P.contains d)
    (fun a ha => List.elem_iff.mpr (hsub a (List.elem_iff.mp ha)))
  have := hmono.length_le
  omega

/-- Adding one new name to `result` raises the emitted-dependency count of
`p` by the multiplicity of that name in `p`'s `requires` list. -/
lemma length_filter_contains_append (l : List String) {r : List String}
    {n : String} (hn : n ∉ r) :
    (l.filter (fun d => (r ++ [n]).contains d)).length
      = (l.filter (fun d => r.contains d)).length + l.count n := by
  induction l with
  | nil => simp
  | cons x xs ih =>
    rw [List.filter_cons, List.filter_cons, List.count_cons]
    by_cases hxn : x = n
    · subst hxn
      rw [if_pos (contains_eq_true_iff.mpr (by simp)),
          if_neg (fun hc => hn (contains_eq_true_iff.mp hc)),
          if_pos (beq_self_eq_true x)]
      simp only [List.length_cons]
      omega
    · by_cases hxr : x ∈ r
      · rw [if_pos (contains_eq_true_iff.mpr (by simp [hxr])),
            if_pos (contains_eq_true_iff.mpr hxr),
            if_neg (by simp [hxn])]
        simp only [List.length_cons]
        omega
      · rw [if_neg (fun hc => by
              rcases List.mem_append.mp (contains_eq_true_iff.mp hc) with h | h
              · exact hxr h
              · exact hxn (List.mem_singleton.mp h)),
            if_neg (fun hc => hxr (contains_eq_true_iff.mp hc)),
            if_neg (by simp [hxn])]
        omega

/-! ### Counting occurrences in the dependency graph -/

lemma count_filterMap_if (l : List String) (d proc p : String) :
    (l.filterMap (fun dep => if dep == d then some proc else none)).count p
      = if proc = p then l.count d else 0 := by
  induction l with
  | nil => simp
  | cons x xs ih =>
    by_cases hx : x = d
    · rw [List.filterMap_cons_some (b := proc) (by rw [if_pos (beq_iff_eq.mpr hx)]),
          List.count_cons, ih, List.count_cons, if_pos (beq_iff_eq.mpr hx)]
      by_cases hpp : proc = p
      · rw [if_pos hpp, if_pos hpp, if_pos (beq_iff_eq.mpr hpp)]
      · rw [if_neg hpp, if_neg hpp,
            if_neg (fun hc => hpp (beq_iff_eq.mp hc))]
    · rw [List.filterMap_cons_none
            (by rw [if_neg (fun hc => hx (beq_iff_eq.mp hc))]),
          ih, List.count_cons, if_neg (fun hc => hx (beq_iff_eq.mp hc))]
      split_ifs <;> omega

lemma count_flatMap_proc (reg : Registry) (d p : String) :
    ∀ (L : List String), L.Nodup →
      (L.flatMap (fun proc => (reg.get_dependencies proc).filterMap
          (fun dep => if dep == d then some proc else none))).count p
        = if p ∈ L then (reg.get_dependencies p).count d else 0 := by
  intro L
  induction L with
  | nil => simp
  | cons x xs ih =>
    intro hnd
    rw [List.flatMap_cons, List.count_append, count_filterMap_if,
        ih (List.nodup_cons.mp hnd).2]
    have hx : x ∉ xs := (List.nodup_cons.mp hnd).1
    by_cases hpx : x = p
    · subst hpx
      rw [if_pos rfl, if_neg hx, if_pos (List.mem_cons_self x xs)]
      omega
    · rw [if_neg hpx]
      by_cases hpxs : p ∈ xs
      · rw [if_pos hpxs, if_pos (List.mem_cons_of_mem x hpxs)]
        omega
      · rw [if_neg hpxs, if_neg (fun hc => by
          rcases List.mem_cons.mp hc with h | h
          · exact hpx h.symm
          · exact hpxs h)]

/-- Under a duplicate-free name list, `graph[d]` contains each dependent `p`
once per occurrence of `d` in `p`'s `requires` list. -/
lemma count_graphOf (reg : Registry) {P : List String} (hP : P.Nodup)
    {d : String} (hd : d ∈ P) (p : String) :
    (graphOf reg P d).count p
      = if p ∈ P then (reg.get_dependencies p).count d else 0 := by
  unfold graphOf
  rw [if_pos (contains_eq_true_iff.mpr hd)]
  exact count_flatMap_proc reg d p P hP

lemma mem_graphOf_subset (reg : Registry) (P : List String) (d : String) :
    ∀ q ∈ graphOf reg P d, q ∈ P := by
  intro q hq
  unfold graphOf at hq
  split at hq
  · obtain ⟨proc, hproc, hmem⟩ := List.mem_flatMap.mp hq
    obtain ⟨dep, _, hif⟩ := List.mem_filterMap.mp hmem
    have : q = proc := by
      by_cases hdep : (dep == d) = true
      · rw [if_pos hdep] at hif
        exact (Option.some_inj.mp hif).symm
      · rw [if_neg hdep] at hif
        cases hif
    exact this ▸ hproc
  · cases hq

/-! ### Behaviour of the inner edge-processing loop -/

lemma processEdges_fst (es : List String) :
    ∀ (inDeg : String → Int) (queue : List String) (p : String),
      (processEdges inDeg queue es).1 p = inDeg p - es.count p := by
  induction es with
  | nil =>
    intro inDeg queue p
    simp [processEdges]
  | cons dep rest ih =>
    intro inDeg queue p
    simp only [processEdges]
    rw [ih, List.count_cons]
    by_cases hp : p = dep
    · subst hp
      rw [if_pos rfl, if_pos (beq_self_eq_true p)]
      push_cast
      ring
    · rw [if_neg hp, if_neg (fun hc => hp (beq_iff_eq.mp hc).symm)]
      push_cast
      ring

lemma processEdges_snd (es : List String) :
    ∀ (inDeg : String → Int) (queue : List String),
      ∃ newly, (processEdges inDeg queue es).2 = queue ++ newly ∧
        newly.Nodup ∧
        ∀ q, q ∈ newly ↔ (1 ≤ inDeg q ∧ inDeg q ≤ (es.count q : Int)) := by
  induction es with
  | nil =>
    intro inDeg queue
    refine ⟨[], by simp [processEdges], List.nodup_nil, ?_⟩
    intro q
    simp
    omega
  | cons dep rest ih =>
    intro inDeg queue
    have heq : processEdges inDeg queue (dep :: rest)
        = processEdges (fun x => if x = dep then inDeg x - 1 else inDeg x)
            (if (if dep = dep then inDeg dep - 1 else inDeg dep) = 0
             then queue ++ [dep] else queue) rest := rfl
    rw [heq, if_pos (c := dep = dep) rfl]
    by_cases h0 : inDeg dep - 1 = 0
    · rw [if_pos h0]
      obtain ⟨newly', h1, h2, h3⟩ :=
        ih (fun x => if x = dep then inDeg x - 1 else inDeg x) (queue ++ [dep])
      refine ⟨dep :: newly', ?_, ?_, ?_⟩
      · rw [h1, List.append_assoc, List.singleton_append]
      · refine List.nodup_cons.mpr ⟨?_, h2⟩
        intro hc
        have hm := (h3 dep).mp hc
        rw [if_pos rfl] at hm
        omega
      · intro q
        rw [List.mem_cons, List.count_cons]
        by_cases hq : q = dep
        · rw [if_pos (beq_iff_eq.mpr hq.symm)]
          have h0' : inDeg q - 1 = 0 := by rw [hq]; exact h0
          constructor
          · intro _
            push_cast
            omega
          · intro _
            exact Or.inl hq
        · rw [if_neg (fun hc => hq (beq_iff_eq.mp hc).symm)]
          have h3q := h3 q
          rw [if_neg hq] at h3q
          constructor
          · intro hmem
            rcases hmem with h | h
            · exact absurd h hq
            · have := h3q.mp h
              push_cast
              omega
          · intro hcond
            refine Or.inr (h3q.mpr ?_)
            push_cast at hcond
            omega
    · rw [if_neg h0]
      obtain ⟨newly', h1, h2, h3⟩ :=
        ih (fun x => if x = dep then inDeg x - 1 else inDeg x) queue
      refine ⟨newly', h1, h2, ?_⟩
      intro q
      rw [List.count_cons]
      by_cases hq : q = dep
      · have h3q := h3 q
        rw [if_pos hq] at h3q
        have h0' : ¬ (inDeg q - 1 = 0) := by rw [hq]; exact h0
        rw [if_pos (beq_iff_eq.mpr hq.symm), h3q]
        push_cast
        omega
      · have h3q := h3 q
        rw [if_neg hq] at h3q
        rw [if_neg (fun hc => hq (beq_iff_eq.mp hc).symm), h3q]
        push_cast
        omega

/-! ### The loop invariant of Kahn's algorithm -/

/-- Invariant of the `while queue` loop: the emitted `result` and the
pending `queue` are duplicate-free names from `P`; `inDeg` tracks, for each
name, its in-`P` dependencies not yet emitted; a name has appeared
(emitted or queued) exactly when all of its in-`P` dependencies are
emitted; and `result` is dependency-ordered. -/
structure KahnInv (reg : Registry) (P queue result : List String)
    (inDeg : String → Int) : Prop where
  nodup : (result ++ queue).Nodup
  subP : ∀ x ∈ result ++ queue, x ∈ P
  deg : ∀ p ∈ P, inDeg p =
    (((reg.get_dependencies p).filter (fun d => P.contains d)).length : Int)
      - (((reg.get_dependencies p).filter
          (fun d => result.contains d)).length : Int)
  appear : ∀ p ∈ P, (p ∈ result ∨ p ∈ queue) ↔ DepsDone reg P result p
  ord : DepOrdered reg P result

lemma depOrdered_append (reg : Registry) (P : List String)
    {result : List String} {node : String} (h : DepOrdered reg P result)
    (hnode : DepsDone reg P result node) :
    DepOrdered reg P (result ++ [node]) := by
  intro j p hj d hd hdP
  rw [List.getElem?_append] at hj
  by_cases hlt : j < result.length
  · rw [if_pos hlt] at hj
    obtain ⟨i, hij, hgi⟩ := h j p hj d hd hdP
    refine ⟨i, hij, ?_⟩
    rw [List.getElem?_append, if_pos (lt_trans hij hlt)]
    exact hgi
  · rw [if_neg hlt] at hj
    rcases hk : j - result.length with _ | k
    · rw [hk] at hj
      have hp : p = node := by
        rw [show ([node] : List String)[0]? = some node from rfl] at hj
        exact (Option.some_inj.mp hj).symm
      subst hp
      have hd' : d ∈ result := hnode d hd hdP
      obtain ⟨i, hgi⟩ := List.mem_iff_getElem?.mp hd'
      have hilt : i < result.length := (List.getElem?_eq_some.mp hgi).1
      refine ⟨i, by omega, ?_⟩
      rw [List.getElem?_append, if_pos hilt]
      exact hgi
    · rw [hk, List.getElem?_cons_succ] at hj
      simp at hj

lemma kahnInv_step (reg : Registry) {P : List String} (hP : P.Nodup)
    (node : String) (rest result : List String) (inDeg : String → Int)
    (hinv : KahnInv reg P (node :: rest) result inDeg) :
    ∃ newly,
      (processEdges inDeg rest (graphOf reg P node)).2 = rest ++ newly ∧
      KahnInv reg P (rest ++ newly) (result ++ [node])
        (processEdges inDeg rest (graphOf reg P node)).1 := by
  obtain ⟨newly, hq, hnodupNew, hmem⟩ :=
    processEdges_snd (graphOf reg P node) inDeg rest
  have hfst := processEdges_fst (graphOf reg P node) inDeg rest
  have hnodeP : node ∈ P := hinv.subP node (by simp)
  have hnodeNotRes : node ∉ result := fun hc =>
    (List.disjoint_of_nodup_append hinv.nodup) hc (by simp)
  have hDepsNode : DepsDone reg P result node :=
    (hinv.appear node hnodeP).mp (Or.inr (by simp))
  have hResSub : ∀ x ∈ result, x ∈ P := fun x hx =>
    hinv.subP x (List.mem_append.mpr (Or.inl hx))
  have hResSub' : ∀ x ∈ result ++ [node], x ∈ P := by
    intro x hx
    rcases List.mem_append.mp hx with h | h
    · exact hResSub x h
    · rw [List.mem_singleton.mp h]
      exact hnodeP
  have hnewP : ∀ q ∈ newly, q ∈ P := by
    intro q hq'
    have h1 := (hmem q).mp hq'
    have hpos : 0 < (graphOf reg P node).count q := by omega
    exact mem_graphOf_subset reg P node q (List.count_pos_iff.mp hpos)
  have hzero : ∀ p ∈ P, (inDeg p = 0 ↔ DepsDone reg P result p) := by
    intro p hp
    rw [hinv.deg p hp]
    exact degFormula_zero_iff reg P result hResSub p
  have hnn : ∀ p ∈ P, 0 ≤ inDeg p := by
    intro p hp
    rw [hinv.deg p hp]
    exact degFormula_nonneg reg P result hResSub p
  have hnewFresh : ∀ q ∈ newly, q ∉ result ∧ q ∉ (node :: rest) := by
    intro q hq'
    have h1 := (hmem q).mp hq'
    have hqP : q ∈ P := hnewP q hq'
    by_contra hc
    rw [not_and_or, not_not, not_not] at hc
    have happ : q ∈ result ∨ q ∈ node :: rest := hc
    have hdone := (hinv.appear q hqP).mp happ
    have h0 := (hzero q hqP).mpr hdone
    omega
  have hdeg' : ∀ p ∈ P, (processEdges inDeg rest (graphOf reg P node)).1 p
      = (((reg.get_dependencies p).filter (fun d => P.contains d)).length : Int)
        - (((reg.get_dependencies p).filter
            (fun d => (result ++ [node]).contains d)).length : Int) := by
    intro p hp
    rw [hfst p, hinv.deg p hp]
    have hc := count_graphOf reg hP hnodeP p
    rw [hc, if_pos hp,
        length_filter_contains_append (reg.get_dependencies p) hnodeNotRes]
    push_cast
    ring
  have hzero' : ∀ p ∈ P,
      ((processEdges inDeg rest (graphOf reg P node)).1 p = 0
        ↔ DepsDone reg P (result ++ [node]) p) := by
    intro p hp
    rw [hdeg' p hp]
    exact degFormula_zero_iff reg P (result ++ [node]) hResSub' p
  have hnn' : ∀ p ∈ P,
      0 ≤ (processEdges inDeg rest (graphOf reg P node)).1 p := by
    intro p hp
    rw [hdeg' p hp]
    exact degFormula_nonneg reg P (result ++ [node]) hResSub' p
  refine ⟨newly, hq, ?_⟩
  refine ⟨?_, ?_, hdeg', ?_, ?_⟩
  · -- nodup
    have heq2 : result ++ node :: rest = (result ++ [node]) ++ rest := by
      rw [List.append_assoc, List.singleton_append]
    have h1 : ((result ++ [node]) ++ rest).Nodup := heq2 ▸ hinv.nodup
    rw [← List.append_assoc]
    refine h1.append hnodupNew ?_
    intro a ha hcn
    obtain ⟨h2, h3⟩ := hnewFresh a hcn
    rcases List.mem_append.mp ha with h | h
    · rcases List.mem_append.mp h with h | h
      · exact h2 h
      · exact h3 (by rw [List.mem_singleton.mp h]; simp)
    · exact h3 (List.mem_cons_of_mem node h)
  · -- subP
    intro x hx
    rcases List.mem_append.mp hx with h | h
    · exact hResSub' x h
    · rcases List.mem_append.mp h with h | h
      · exact hinv.subP x
          (List.mem_append.mpr (Or.inr (List.mem_cons_of_mem node h)))
      · exact hnewP x h
  · -- appear
    intro p hp
    by_cases hOld : p ∈ result ∨ p ∈ node :: rest
    · have hdone : DepsDone reg P result p := (hinv.appear p hp).mp hOld
      have hdone' : DepsDone reg P (result ++ [node]) p := fun d hd hdP =>
        List.mem_append.mpr (Or.inl (hdone d hd hdP))
      constructor
      · intro _
        exact hdone'
      · intro _
        rcases hOld with h | h
        · exact Or.inl (List.mem_append.mpr (Or.inl h))
        · rcases List.mem_cons.mp h with h | h
          · exact Or.inl (List.mem_append.mpr (Or.inr (by rw [h]; simp)))
          · exact Or.inr (List.mem_append.mpr (Or.inl h))
    · rw [not_or] at hOld
      obtain ⟨hnr, hnq⟩ := hOld
      have hne0 : ¬ (inDeg p = 0) := fun h0 =>
        (by tauto : ¬ (p ∈ result ∨ p ∈ node :: rest))
          ((hinv.appear p hp).mpr ((hzero p hp).mp h0))
      have hpnode : p ≠ node := fun hc => hnq (by rw [hc]; simp)
      have hL : (p ∈ result ++ [node] ∨ p ∈ rest ++ newly) ↔ p ∈ newly := by
        constructor
        · intro hl
          rcases hl with h | h
          · rcases List.mem_append.mp h with h | h
            · exact absurd h hnr
            · exact absurd (List.mem_singleton.mp h) hpnode
          · rcases List.mem_append.mp h with h | h
            · exact absurd (List.mem_cons_of_mem node h) hnq
            · exact h
        · intro h
          exact Or.inr (List.mem_append.mpr (Or.inr h))
      rw [hL, hmem p, ← hzero' p hp, hfst p]
      have hnn0 := hnn p hp
      have hnn1 := hnn' p hp
      rw [hfst p] at hnn1
      omega
  · exact depOrdered_append reg P hinv.ord hDepsNode

/-- With sufficient fuel the loop drains the queue while maintaining the
invariant. -/
lemma kahnLoop_drain (reg : Registry) {P : List String} (hP : P.Nodup) :
    ∀ (fuel : Nat) (queue : List String) (inDeg : String → Int)
      (result : List String),
      KahnInv reg P queue result inDeg →
      queue.length + (P.length - (result.length + queue.length)) ≤ fuel →
      ∃ res inDeg',
        kahnLoop (graphOf reg P) fuel queue inDeg result = (res, []) ∧
        KahnInv reg P [] res inDeg' := by
  intro fuel
  induction fuel with
  | zero =>
    intro queue inDeg result hinv hfuel
    have hq : queue = [] := List.length_eq_zero.mp (by omega)
    subst hq
    exact ⟨result, inDeg, rfl, hinv⟩
  | succ fuel ih =>
    intro queue inDeg result hinv hfuel
    rcases queue with _ | ⟨node, rest⟩
    · exact ⟨result, inDeg, rfl, hinv⟩
    · obtain ⟨newly, hq, hinv'⟩ := kahnInv_step reg hP node rest result inDeg hinv
      have hkahn : kahnLoop (graphOf reg P) (fuel + 1) (node :: rest) inDeg result
          = kahnLoop (graphOf reg P) fuel
              (processEdges inDeg rest (graphOf reg P node)).2
              (processEdges inDeg rest (graphOf reg P node)).1
              (result ++ [node]) := rfl
      rw [hkahn, hq]
      have hlenNew := nodup_subset_length hinv'.nodup hinv'.subP
      refine ih (rest ++ newly) _ (result ++ [node]) hinv' ?_
      simp only [List.length_append, List.length_cons,
        List.length_singleton] at hlenNew hfuel ⊢
      omega

/-- The invariant holds at loop entry. -/
lemma kahnInv_init (reg : Registry) {P : List String} (hP : P.Nodup) :
    KahnInv reg P (P.filter (fun p => initDeg reg P p == 0)) []
      (initDeg reg P) := by
  have hfilter_nil : ∀ l : List String,
      l.filter (fun d => ([] : List String).contains d) = [] := by
    intro l
    exact List.filter_eq_nil_iff.mpr (fun a _ hc => by cases hc)
  refine ⟨?_, ?_, ?_, ?_, ?_⟩
  · simpa using hP.filter _
  · intro x hx
    simp only [List.nil_append] at hx
    exact (List.mem_filter.mp hx).1
  · intro p hp
    rw [hfilter_nil]
    unfold initDeg
    rw [List.count_eq_one_of_mem hP hp]
    simp
  · intro p hp
    have hdeg0 : initDeg reg P p =
        (((reg.get_dependencies p).filter (fun d => P.contains d)).length : Int)
          - (((reg.get_dependencies p).filter
              (fun d => ([] : List String).contains d)).length : Int) := by
      rw [hfilter_nil]
      unfold initDeg
      rw [List.count_eq_one_of_mem hP hp]
      simp
    constructor
    · intro h
      rcases h with h | h
      · cases h
      · have h0 : initDeg reg P p = 0 :=
          beq_iff_eq.mp (List.mem_filter.mp h).2
        rw [hdeg0] at h0
        exact (degFormula_zero_iff reg P [] (fun x hx => by cases hx) p).mp h0
    · intro hdone
      refine Or.inr (List.mem_filter.mpr ⟨hp, beq_iff_eq.mpr ?_⟩)
      rw [hdeg0]
      exact (degFormula_zero_iff reg P [] (fun x hx => by cases hx) p).mpr hdone
  · intro j p hj
    simp at hj

/-! ## Claim C1: topological correctness of `get_execution_order` -/

/-- C1.  For every registry and every (duplicate-free) list `names` of
registered processor names whose `requires` relation restricted to `names`
is acyclic (well-founded), `get_execution_order names` succeeds and returns
a permutation of `names` in which every processor appears after every
element of its `requires` list that is also in `names`. -/
theorem C1_get_execution_order_topological (reg : Registry)
    (names : List String) (hnd : names.Nodup)
    (hreg : ∀ n ∈ names, (reg.get n).isSome)
    (hacyc : WellFounded (reg.EdgeIn names)) :
    ∃ order, reg.get_execution_order names = some order ∧
      order.Perm names ∧ DepOrdered reg names order := by
  clear hreg
  obtain ⟨res, inDeg', hloop, hfin⟩ := kahnLoop_drain reg hnd
    (2 * names.length + 1)
    (names.filter (fun p => initDeg reg names p == 0)) (initDeg reg names) []
    (kahnInv_init reg hnd)
    (by
      have := List.length_filter_le
        (fun p => initDeg reg names p == 0) names
      simp only [List.length_nil]
      omega)
  have hsub : ∀ p ∈ names, p ∈ res := by
    by_contra hc
    push_neg at hc
    obtain ⟨m0, hm0P, hm0⟩ := hc
    obtain ⟨m, ⟨hmP, hmres⟩, hmin⟩ := hacyc.has_min
      {p | p ∈ names ∧ p ∉ res} ⟨m0, hm0P, hm0⟩
    have hnotdone : ¬ DepsDone reg names res m := by
      intro hd
      rcases (hfin.appear m hmP).mpr hd with h | h
      · exact hmres h
      · cases h
    unfold DepsDone at hnotdone
    push_neg at hnotdone
    obtain ⟨d, hd, hdP, hdres⟩ := hnotdone
    exact hmin d ⟨hdP, hdres⟩ ⟨hd, hdP, hmP⟩
  have hres_sub : ∀ x ∈ res, x ∈ names := by
    intro x hx
    exact hfin.subP x (by simpa using hx)
  have hnd_res : res.Nodup := by simpa using hfin.nodup
  have hperm : res.Perm names :=
    (hnd_res.subperm hres_sub).antisymm (hnd.subperm hsub)
  refine ⟨res, ?_, hperm, hfin.ord⟩
  show (if (kahnLoop (graphOf reg names) (2 * names.length + 1)
        (names.filter fun p => initDeg reg names p == 0)
        (initDeg reg names) []).1.length == names.length
      then some (kahnLoop (graphOf reg names) (2 * names.length + 1)
        (names.filter fun p => initDeg reg names p == 0)
        (initDeg reg names) []).1 else none) = some res
  rw [hloop]
  simp [hperm.length_eq]

/-- Concrete registry for the C1 witness: `a` with no dependencies and
`b` requiring `a`. -/
def regC1 : Registry :=
  { processors := [("a", { name := "a" }),
                   ("b", { name := "b", requires := ["a"] })],
    definitions := [("a", { name := "a" }),
                    ("b", { name := "b", requires := ["a"] })] }

lemma regC1_edge_wf : WellFounded (regC1.EdgeIn ["b", "a"]) := by
  constructor
  intro x
  have hdepsA : regC1.get_dependencies "a" = [] := by decide
  have hdepsB : regC1.get_dependencies "b" = ["a"] := by decide
  have ha : Acc (regC1.EdgeIn ["b", "a"]) "a" := by
    constructor
    intro d hd
    obtain ⟨h1, _, _⟩ := hd
    rw [hdepsA] at h1
    cases h1
  constructor
  intro d hd
  obtain ⟨h1, h2, h3⟩ := hd
  have hda : d = "a" := by
    have hx : x = "b" ∨ x = "a" := by simpa using h3
    rcases hx with hx | hx
    · rw [hx, hdepsB] at h1
      simpa using h1
    · rw [hx, hdepsA] at h1
      cases h1
  rw [hda]
  exact ha

/-- Witness for C1 at the concrete registry `regC1` and input
`["b", "a"]`. -/
theorem C1_witness :
    (["b", "a"] : List String).Nodup ∧
    (∀ n ∈ (["b", "a"] : List String), (regC1.get n).isSome) ∧
    WellFounded (regC1.EdgeIn ["b", "a"]) ∧
    (∃ order, regC1.get_execution_order ["b", "a"] = some order ∧
      order.Perm ["b", "a"] ∧ DepOrdered regC1 ["b", "a"] order) :=
  ⟨by decide, by decide, regC1_edge_wf,
    C1_get_execution_order_topological regC1 ["b", "a"]
      (by decide) (by decide) regC1_edge_wf⟩

/-! ## Claim C8: tie-breaking in `get_execution_order` -/

/-- Concrete registry for C8: `a` registered before `b`, neither requiring
the other. -/
def regC8 : Registry :=
  { processors := [("a", { name := "a" }), ("b", { name := "b" })],
    definitions := [("a", { name := "a" }), ("b", { name := "b" })] }

/-- C8 counterexample.  `a` was registered before `b`, neither transitively
requires the other, yet on input `["b", "a"]` the returned ordering is
`["b", "a"]`: the later-registered `b` comes first, so ties are NOT broken
by registration order regardless of the input order — they follow the input
order. -/
theorem C8_counterexample :
    regC8.processors.map Prod.fst = ["a", "b"] ∧
    regC8.get_dependencies "a" = [] ∧
    regC8.get_dependencies "b" = [] ∧
    regC8.get_execution_order ["b", "a"] = some ["b", "a"] := by
  refine ⟨rfl, by decide, by decide, by decide⟩

lemma kahnLoop_of_graph_nil (g : String → List String) (hg : ∀ d, g d = []) :
    ∀ (fuel : Nat) (queue : List String) (inDeg : String → Int)
      (result : List String), queue.length ≤ fuel →
      kahnLoop g fuel queue inDeg result = (result ++ queue, []) := by
  intro fuel
  induction fuel with
  | zero =>
    intro queue inDeg result hq
    have : queue = [] := List.length_eq_zero.mp (by omega)
    subst this
    simp [kahnLoop]
  | succ fuel ih =>
    intro queue inDeg result hq
    rcases queue with _ | ⟨node, rest⟩
    · simp [kahnLoop]
    · have h1 : kahnLoop g (fuel + 1) (node :: rest) inDeg result
          = kahnLoop g fuel (processEdges inDeg rest (g node)).2
              (processEdges inDeg rest (g node)).1 (result ++ [node]) := rfl
      rw [h1, hg node]
      have h2 : processEdges inDeg rest ([] : List String) = (inDeg, rest) := rfl
      rw [h2]
      rw [ih rest inDeg (result ++ [node]) (by simpa using Nat.le_of_succ_le_succ hq)]
      rw [List.append_assoc, List.singleton_append]

/-- C8 amended.  Ties are broken by the order of the *input list*, not by
registration order: when no name in the list requires any other name in the
list, `get_execution_order` returns the input list unchanged, whatever the
registration order was. -/
theorem C8_ties_follow_input_order (reg : Registry) (names : List String)
    (hfree : ∀ p ∈ names, ∀ d ∈ reg.get_dependencies p, d ∉ names) :
    reg.get_execution_order names = some names := by
  have hg : ∀ d, graphOf reg names d = [] := by
    intro d
    unfold graphOf
    split
    · rename_i hd
      apply List.flatMap_eq_nil_iff.mpr
      intro proc hproc
      apply List.filterMap_eq_nil_iff.mpr
      intro dep hdep
      rw [if_neg]
      intro hc
      exact hfree proc hproc dep hdep
        (beq_iff_eq.mp hc ▸ contains_eq_true_iff.mp hd)
    · rfl
  have hdeg : ∀ p ∈ names, initDeg reg names p = 0 := by
    intro p hp
    unfold initDeg
    have hfil : (reg.get_dependencies p).filter
        (fun d => names.contains d) = [] := by
      apply List.filter_eq_nil_iff.mpr
      intro d hd hc
      exact hfree p hp d hd (contains_eq_true_iff.mp hc)
    rw [hfil]
    simp
  have hq : names.filter (fun p => initDeg reg names p == 0) = names :=
    List.filter_eq_self.mpr (fun p hp => beq_iff_eq.mpr (hdeg p hp))
  show (if (kahnLoop (graphOf reg names) (2 * names.length + 1)
        (names.filter fun p => initDeg reg names p == 0)
        (initDeg reg names) []).1.length == names.length
      then some (kahnLoop (graphOf reg names) (2 * names.length + 1)
        (names.filter fun p => initDeg reg names p == 0)
        (initDeg reg names) []).1 else none) = some names
  rw [hq, kahnLoop_of_graph_nil (graphOf reg names) hg _ _ _ _ (by omega)]
  simp

/-- Witness for the amended C8 at `regC8` and input `["b", "a"]`. -/
theorem C8_witness :
    (∀ p ∈ (["b", "a"] : List String),
      ∀ d ∈ regC8.get_dependencies p, d ∉ (["b", "a"] : List String)) ∧
    regC8.get_execution_order ["b", "a"] = some ["b", "a"] :=
  ⟨by decide, C8_ties_follow_input_order regC8 ["b", "a"] (by decide)⟩

/-! ## Router (src/core/engine/router.py)

`should_process` is a black-box processor method; it is modelled by a
boolean oracle on processor names.  An exception raised inside
`should_process` excludes the processor, which the oracle models by
returning `false`. -/

/-- Model of `Router.get_next_step`: first name in dependency order that is not yet
completed and whose dependencies are all completed. -/
def routerNextStep (reg : Registry) (shouldProcess : String → Bool)
    (job : Job) : Option String :=
  let completed := job.get_completed_steps
  let applicable := (reg.processors.map Prod.fst).filter shouldProcess
  if applicable.isEmpty then none
  else
    match reg.get_execution_order applicable with
    | none => none
    | some ordered =>
        ordered.find? (fun step_name =>
          !(completed.contains step_name) &&
          (match reg.get step_name with
           | some p => p.requires.all (fun dep => completed.contains dep)
           | none => false))

/-- Model of `Router.can_run_step`: `(can_run, reason)`. -/
def canRunStep (reg : Registry) (job : Job) (step_name : String) :
    Bool × String :=
  match reg.get step_name with
  | none => (false, "Processor '" ++ step_name ++ "' not found")
  | some p =>
      if job.has_completed_step step_name then
        (false, "Step '" ++ step_name ++ "' already completed")
      else
        let missing := p.requires.filter
          (fun dep => !(job.get_completed_steps.contains dep))
        if !missing.isEmpty then
          (false, "Missing dependencies")
        else (true, "")

/-! ## Claim C3: router monotonicity -/

/-- C3.  Once a step name is in the job's completed-steps set,
`get_next_step` never returns it. -/
theorem C3_router_never_returns_completed (reg : Registry)
    (shouldProcess : String → Bool) (job : Job) (name : String)
    (h : name ∈ job.get_completed_steps) :
    routerNextStep reg shouldProcess job ≠ some name := by
  intro hc
  unfold routerNextStep at hc
  by_cases happ : ((reg.processors.map Prod.fst).filter shouldProcess).isEmpty
  · rw [if_pos happ] at hc
    cases hc
  · rw [if_neg happ] at hc
    rcases hord : reg.get_execution_order
        ((reg.processors.map Prod.fst).filter shouldProcess) with _ | ordered
    · rw [hord] at hc
      cases hc
    · rw [hord] at hc
      have hpred := List.find?_some hc
      have hcontains := (Bool.and_eq_true _ _).mp hpred |>.1
      rw [Bool.not_eq_true'] at hcontains
      exact absurd (contains_eq_true_iff.mpr h)
        (by rw [hcontains]; exact Bool.false_ne_true)

/-- Concrete job for the C3 witness: step `a` completed. -/
def jobC3 : Job :=
  { id := "j1",
    history := [{ job_id := "j1", step_name := "a",
                  status := StepStatus.completed }] }

/-- Concrete registry for the C3 witness. -/
def regC3 : Registry :=
  { processors := [("a", { name := "a" }),
                   ("b", { name := "b", requires := ["a"] })],
    definitions := [("a", { name := "a" }),
                    ("b", { name := "b", requires := ["a"] })] }

/-- Witness for C3: with step `a` completed, the router does not return
`a`. -/
theorem C3_witness :
    "a" ∈ jobC3.get_completed_steps ∧
    routerNextStep regC3 (fun _ => true) jobC3 ≠ some "a" :=
  ⟨by decide,
    C3_router_never_returns_completed regC3 (fun _ => true) jobC3 "a"
      (by decide)⟩

/-! ## Claim C4: the `current_step`/status invariant -/

/-- Job states reachable from a freshly constructed job (status `pending`,
`current_step = None`) through the state-transition methods. -/
inductive JobReachable : Job → Prop where
  | init (j : Job) (hs : j.status = JobStatus.pending)
      (hc : j.current_step = none) : JobReachable j
  | start_processing (j : Job) (s : String) :
      JobReachable j → JobReachable (j.start_processing s)
  | await_input (j : Job) (s : String) :
      JobReachable j → JobReachable (j.await_input s)
  | complete (j : Job) : JobReachable j → JobReachable j.complete
  | fail (j : Job) (e : String) : JobReachable j → JobReachable (j.fail e)
  | cancel (j : Job) : JobReachable j → JobReachable j.cancel
  | start_revert (j : Job) : JobReachable j → JobReachable j.start_revert
  | complete_revert (j : Job) (t : Option String) :
      JobReachable j → JobReachable (j.complete_revert t)

/-- The state reached by starting step `A` and then failing: status is
`failed` but `current_step` is still `some "A"`, because `Job.fail` does
not clear it. -/
def jobC4 : Job := (({ id := "j" } : Job).start_processing "A").fail "boom"

/-- C4 counterexample.  The state `jobC4` is reachable through the
transition methods, its status is `failed` (neither `processing` nor
`awaiting_input`), yet `current_step` is non-null — so the claimed "iff"
fails (`fail`, `cancel` and `start_revert` leave `current_step`
untouched). -/
theorem C4_counterexample :
    JobReachable jobC4 ∧
    jobC4.status = JobStatus.failed ∧
    jobC4.current_step = some "A" ∧
    ¬ (jobC4.current_step ≠ none ↔
        (jobC4.status = JobStatus.processing ∨
         jobC4.status = JobStatus.awaiting_input)) := by
  refine ⟨?_, by decide, by decide, by decide⟩
  exact JobReachable.fail _ _
    (JobReachable.start_processing _ _ (JobReachable.init _ rfl rfl))

/-- C4 amended.  Only the forward direction holds: in every reachable state
whose status is `processing` or `awaiting_input`, `current_step` is
non-null.  The converse fails because `fail`, `cancel` and `start_revert`
leave `current_step` unchanged. -/
theorem C4_current_step_nonnull_when_active (j : Job) (h : JobReachable j) :
    (j.status = JobStatus.processing ∨
     j.status = JobStatus.awaiting_input) → j.current_step ≠ none := by
  induction h with
  | init j hs hc =>
    intro hst
    rw [hs] at hst
    rcases hst with h | h <;> cases h
  | start_processing j s _ _ =>
    intro _
    simp [Job.start_processing]
  | await_input j s _ _ =>
    intro _
    simp [Job.await_input]
  | complete j _ _ =>
    intro hst
    rcases hst with h | h <;> cases h
  | fail j e _ _ =>
    intro hst
    rcases hst with h | h <;> cases h
  | cancel j _ _ =>
    intro hst
    rcases hst with h | h <;> cases h
  | start_revert j _ _ =>
    intro hst
    rcases hst with h | h <;> cases h
  | complete_revert j t _ _ =>
    intro hst
    rcases t with _ | s <;> rcases hst with h | h <;> cases h

/-- Witness for the amended C4 at a concrete reachable `processing`
state. -/
theorem C4_witness :
    (({ id := "j" } : Job).start_processing "A").current_step ≠ none :=
  C4_current_step_nonnull_when_active _
    (JobReachable.start_processing _ _ (JobReachable.init _ rfl rfl))
    (Or.inl rfl)

/-! ## Claim C10: failed registration leaves the registry unchanged -/

/-- C10.  When `register` raises (no name, or duplicate name), the registry
is unchanged: both dictionaries keep their prior values, and `get` on every
name returns what it returned before. -/
theorem C10_register_error_preserves_registry (reg : Registry)
    (p : ProcSpec) (h : (reg.register p).2.isSome) :
    (reg.register p).1 = reg ∧
    ∀ n, (reg.register p).1.get n = reg.get n := by
  unfold Registry.register at h ⊢
  by_cases h1 : (p.name == "") = true
  · rw [if_pos h1]
    exact ⟨rfl, fun _ => rfl⟩
  · rw [if_neg h1] at h ⊢
    by_cases h2 : reg.processors.any (fun kv => kv.1 == p.name)
    · rw [if_pos h2]
      exact ⟨rfl, fun _ => rfl⟩
    · rw [if_neg h2] at h
      cases h

/-- Registry with `a` registered, for the C10 witness. -/
def regC10 : Registry :=
  { processors := [("a", { name := "a" })],
    definitions := [("a", { name := "a" })] }

/-- Witness for C10: registering a duplicate of `a` fails and leaves the
registry unchanged. -/
theorem C10_witness :
    ((regC10.register { name := "a", display_name := "again" }).2.isSome
      = true) ∧
    ((regC10.register { name := "a", display_name := "again" }).1 = regC10 ∧
     ∀ n, (regC10.register { name := "a", display_name := "again" }).1.get n
        = regC10.get n) :=
  ⟨by decide,
    C10_register_error_preserves_registry regC10
      { name := "a", display_name := "again" } (by decide)⟩

/-! ## Watch configuration and pattern filter
(src/core/watchers/watch_config.py)

`fnmatch.fnmatch` is Python standard library; on a case-sensitive (POSIX)
platform it is plain glob matching.  The glob features used by the
repository's patterns are `*`, `?` and literal characters, modelled by
`globMatch`. -/

/-- Glob matching, structurally recursive on the pattern: `*` matches any
(possibly empty) sequence — it succeeds when the rest of the pattern
matches some suffix of the string — `?` matches any single character, and
anything else matches itself. -/
def globMatch : List Char → List Char → Bool
  | [], s => s.isEmpty
  | '*' :: ps, s => s.tails.any (fun t => globMatch ps t)
  | '?' :: _, [] => false
  | '?' :: ps, _ :: cs => globMatch ps cs
  | _ :: _, [] => false
  | p :: ps, c :: cs => (p == c) && globMatch ps cs

/-- Model of `fnmatch.fnmatch(filename, pattern)` on a case-sensitive platform. -/
def fnmatch (filename pattern : String) : Bool :=
  globMatch pattern.toList filename.toList

/-- Model of `pathlib.Path(p).name`: the final path component — the characters
after the last `/`. -/
def pathName (p : String) : String :=
  String.mk ((p.toList.reverse.takeWhile (fun c => c ≠ '/')).reverse)

/-- A directory watch configuration (`WatchConfig`), restricted to the
fields the pattern filter reads, with the source's default values. -/
structure WatchConfig where
  path : String
  name : String
  patterns : List String := ["*"]
  ignore_patterns : List String :=
    ["*.tmp", "*.temp", ".DS_Store", "Thumbs.db", "*.swp", "*.swo", "*~",
     ".git/*"]
  enabled : Bool := true
deriving DecidableEq, Repr

/-- Model of `WatchConfig.matches_file`: ignore patterns are checked first, against
the bare filename and against the full path; then the positive patterns are
checked against the filename. -/
def WatchConfig.matches_file (cfg : WatchConfig) (file_path : String) :
    Bool :=
  let filename := pathName file_path
  if cfg.ignore_patterns.any
      (fun pat => fnmatch filename pat || fnmatch file_path pat) then false
  else cfg.patterns.any (fun pat => fnmatch filename pat)

/-! ## Claim C7: the pattern filter -/

/-- C7 amended (first conjunct of the claim).  `matches_file p` is true iff
no ignore pattern matches `p`'s filename or full path, and some positive
pattern matches `p`'s filename.  `matches_file` itself performs no
directory check; callers (`FileWatcher._watch_directory` and
`scan_existing`) skip directories before consulting it. -/
theorem C7_matches_file_iff (cfg : WatchConfig) (p : String) :
    cfg.matches_file p = true ↔
      ((∀ pat ∈ cfg.ignore_patterns,
          fnmatch (pathName p) pat = false ∧ fnmatch p pat = false) ∧
       (∃ pat ∈ cfg.patterns, fnmatch (pathName p) pat = true)) := by
  unfold WatchConfig.matches_file
  by_cases hig : cfg.ignore_patterns.any
      (fun pat => fnmatch (pathName p) pat || fnmatch p pat)
  · rw [if_pos hig]
    rw [List.any_eq_true] at hig
    obtain ⟨pat, hpat, hmatch⟩ := hig
    constructor
    · intro h
      cases h
    · rintro ⟨h1, -⟩
      obtain ⟨h1a, h1b⟩ := h1 pat hpat
      rw [h1a, h1b] at hmatch
      cases hmatch
  · rw [if_neg hig]
    constructor
    · intro h
      rw [List.any_eq_true] at h
      refine ⟨?_, h⟩
      intro pat hpat
      have h2 : ¬ ((fnmatch (pathName p) pat || fnmatch p pat) = true) :=
        fun hc => hig (List.any_eq_true.mpr ⟨pat, hpat, hc⟩)
      rw [Bool.or_eq_true, not_or] at h2
      exact ⟨Bool.eq_false_iff.mpr h2.1, Bool.eq_false_iff.mpr h2.2⟩
    · rintro ⟨-, h2⟩
      exact List.any_eq_true.mpr h2

/-- Scenario marker for the C7 counterexample: "the path denotes a
directory", modelled as membership in the scenario's set of directory
paths.  `matches_file` never consults the file system, so its result cannot
depend on this. -/
def isDirectoryIn (dirs : List String) (p : String) : Bool :=
  dirs.contains p

/-- Watch configuration for the C7 counterexample. -/
def cfgC7 : WatchConfig := { path := "/w", name := "w", patterns := ["*"] }

/-- C7 counterexample (second conjunct of the claim).  In a scenario whose
file system has a directory `notes` inside the watched tree,
`matches_file "notes"` still returns true — the function does no directory
check, so "for a path that denotes a directory, `matches_file` never
returns true" is false of `matches_file` itself (directories are filtered
out by its callers instead). -/
theorem C7_counterexample :
    isDirectoryIn ["notes"] "notes" = true ∧
    cfgC7.matches_file "notes" = true := by
  constructor
  · decide
  · decide

/-! ## File-system model and the execution context
(src/core/engine/context.py)

The file system is a map from path strings to file contents (`none` when
the path does not exist).  `aiofiles.os.rename` has POSIX `os.rename`
semantics: an existing destination is replaced silently.  Paths come from
`str(pathlib.Path(...))`, which is never the empty string. -/

/-- A file system: path → contents. -/
def FS : Type := String → Option String

/-- Write (create or overwrite) a file. -/
def FS.write (fs : FS) (p content : String) : FS :=
  fun q => if q = p then some content else fs q

/-- Remove a file. -/
def FS.remove (fs : FS) (p : String) : FS :=
  fun q => if q = p then none else fs q

/-- Model of `os.rename src dst`: `dst` receives `src`'s content, `src` disappears,
an existing `dst` is overwritten silently. -/
def FS.rename (fs : FS) (src dst : String) : FS :=
  fun q => if q = dst then fs src else if q = src then none else fs q

/-- Model of `Path.exists`. -/
def FS.pathExists (fs : FS) (p : String) : Bool := (fs p).isSome

/-! ### Python string and YAML/JSON helpers used by `update_frontmatter`

The string methods `content.split("\n")`, `"\n".join(...)` and
`str.strip()` are modelled at the character level.
`yaml.safe_load`/`yaml.dump` are external library code; they are modelled
for the flat string-scalar mappings the frontmatter code passes them:
`safe_load` reads `key: value` lines, `dump` emits `key: value` lines with
the keys sorted (PyYAML's default `sort_keys=True`).
`json.dumps`/`json.loads` only carry a frontmatter mapping through an
artifact's opaque `before_state` payload and back; they are modelled by an
injective encoding and its parser, whose output is never the empty string
(so its Python truthiness matches that of `json.dumps` output, which is
truthy even for the empty mapping). -/

/-- Model of Python `str.split` on a single separator character. -/
def splitOnChar (sep : Char) : List Char → List (List Char)
  | [] => [[]]
  | c :: cs =>
      match splitOnChar sep cs with
      | [] => [[]]
      | w :: ws => if c = sep then [] :: w :: ws else (c :: w) :: ws

/-- Model of `content.split("\n")`. -/
def splitLines (s : String) : List String :=
  (splitOnChar '\n' s.toList).map String.mk

/-- Model of `"\n".join(lines)`. -/
def joinLines : List String → String
  | [] => ""
  | [l] => l
  | l :: ls => l ++ "\n" ++ joinLines ls

/-- The whitespace characters `str.strip` removes (a split line cannot
contain a newline). -/
def isPySpace (c : Char) : Bool :=
  c = ' ' || c = '\t' || c = '\r' || c = '\x0b' || c = '\x0c'

/-- Model of `str.strip`. -/
def stripStr (s : String) : String :=
  String.mk (((s.toList.dropWhile isPySpace).reverse.dropWhile
    isPySpace).reverse)

/-- Code-point lexicographic order (Python string comparison, used by
PyYAML's key sorting). -/
def charListLe : List Char → List Char → Bool
  | [], _ => true
  | _ :: _, [] => false
  | a :: as_, b :: bs =>
      if a = b then charListLe as_ bs else Nat.blt a.toNat b.toNat

/-- Insertion into a key-sorted association list. -/
def insertByKey (kv : String × String) :
    List (String × String) → List (String × String)
  | [] => [kv]
  | x :: xs =>
      if charListLe kv.1.toList x.1.toList then kv :: x :: xs
      else x :: insertByKey kv xs

/-- Sort a mapping by key (PyYAML dumps with `sort_keys=True`). -/
def sortByKey (l : List (String × String)) : List (String × String) :=
  l.foldr insertByKey []

/-- Model of `yaml.dump(fm, allow_unicode=True, default_flow_style=False)`
for a flat string-scalar mapping: one `key: value` line per entry, keys
sorted. -/
def yamlDumpFM (fm : List (String × String)) : String :=
  String.join ((sortByKey fm).map (fun kv => kv.1 ++ ": " ++ kv.2 ++ "\n"))

/-- Split one `key: value` line at the first colon; a single space after
the colon is not part of the value. -/
def splitAtColon : List Char → Option (List Char × List Char)
  | [] => none
  | ':' :: ' ' :: rest => some ([], rest)
  | ':' :: rest => some ([], rest)
  | c :: rest =>
      match splitAtColon rest with
      | some (k, v) => some (c :: k, v)
      | none => none

/-- Model of `yaml.safe_load` on a frontmatter slice: empty input is the
empty mapping (`safe_load` returns `None`, which the `or` in the caller
turns into the empty dict); otherwise every line must be a `key: value`
line — anything else models a `YAMLError`. -/
def yamlLoadFM (s : String) : Option (List (String × String)) :=
  if s = "" then some []
  else
    (splitLines s).foldr
      (fun line acc =>
        match acc with
        | none => none
        | some ps =>
            match splitAtColon line.toList with
            | some (k, v) => some ((String.mk k, String.mk v) :: ps)
            | none => none)
      (some [])

/-- Comma-joined concatenation. -/
def joinWithComma : List String → String
  | [] => ""
  | [l] => l
  | l :: ls => l ++ "," ++ joinWithComma ls

/-- Model of `json.dumps` for a flat string-scalar mapping: an injective
encoding (the payload is opaque; the real JSON text is produced and read
back only by the external `json` library).  Never the empty string. -/
def jsonDumpsFM (fm : List (String × String)) : String :=
  "\x7b" ++ joinWithComma (fm.map (fun kv => kv.1 ++ "=" ++ kv.2)) ++ "\x7d"

/-- Split an encoded pair at the first `=`. -/
def splitAtEq : List Char → Option (List Char × List Char)
  | [] => none
  | '=' :: rest => some ([], rest)
  | c :: rest =>
      match splitAtEq rest with
      | some (k, v) => some (c :: k, v)
      | none => none

/-- Model of `json.loads` on the image of `jsonDumpsFM`; malformed input
models a raised decode error, which the rollback loop catches per
artifact. -/
def jsonLoadsFM (s : String) : Option (List (String × String)) :=
  match s.toList with
  | [] => none
  | c :: rest =>
      if c = '\x7b' then
        match rest.reverse with
        | [] => none
        | d :: mid_rev =>
            if d = '\x7d' then
              let mid := mid_rev.reverse
              if mid.isEmpty then some []
              else
                (splitOnChar ',' mid).foldr
                  (fun part acc =>
                    match acc with
                    | none => none
                    | some ps =>
                        match splitAtEq part with
                        | some (k, v) =>
                            some ((String.mk k, String.mk v) :: ps)
                        | none => none)
                  (some [])
            else none
      else none

/-- Model of `ExecutionContext._parse_frontmatter`: if the first line
*strips* to `---`, scan for the next line stripping to `---` and
YAML-load the slice between them; on a missing closing delimiter or a
YAML error the whole content is body with empty frontmatter.  Note the
`strip()`: a delimiter line with surrounding whitespace is accepted, but
every rebuild emits the canonical `---` line. -/
def parseFrontmatter (content : String) : List (String × String) × String :=
  match splitLines content with
  | [] => ([], content)
  | first :: rest =>
      if stripStr first ≠ "---" then ([], content)
      else
        match rest.findIdx? (fun l => stripStr l == "---") with
        | none => ([], content)
        | some i =>
            match yamlLoadFM (joinLines (rest.take i)) with
            | none => ([], content)
            | some fm => (fm, joinLines (rest.drop (i + 1)))

/-- Model of `ExecutionContext._build_frontmatter`: empty string for an
empty mapping, else the dumped mapping between `---` delimiter lines. -/
def buildFrontmatter (fm : List (String × String)) : String :=
  if fm.isEmpty then "" else "---\n" ++ yamlDumpFM fm ++ "---\n"

/-- The six context operations a processor can perform
(`ExecutionContext`). -/
inductive CtxOp where
  | create_file (path content : String)
  | modify_file (path new_content : String)
  | delete_file (path : String)
  | move_file (source dest : String)
  | update_frontmatter (path : String) (updates : List (String × String))
  | record_api_call (service action response : String) (reversible : Bool)
deriving DecidableEq, Repr

/-- Whether an operation is `update_frontmatter` — the one operation whose
rollback re-emits state instead of restoring the original bytes. -/
def CtxOp.isFrontmatter : CtxOp → Bool
  | CtxOp.update_frontmatter _ _ => true
  | _ => false

/-- Paths recorded in artifacts come from `str(Path(...))` and are never
empty. -/
def CtxOp.wellFormed : CtxOp → Bool
  | CtxOp.move_file s d => !s.isEmpty && !d.isEmpty
  | _ => true

/-- One context operation: the precondition check, the on-disk effect and
the artifact recorded for undo (`create_file`, `modify_file`,
`delete_file`, `move_file`, `record_api_call`).  `none` models the raised
precondition error (`FileExistsError`/`FileNotFoundError`). -/
def applyOp (job_id step_name : String) (fs : FS) :
    CtxOp → Option (FS × Artifact)
  | CtxOp.create_file path content =>
      if fs.pathExists path then none
      else some (fs.write path content,
        { job_id := job_id, step_name := step_name,
          artifact_type := ArtifactType.file_create, target := path,
          after_state := some content,
          status := ArtifactStatus.created,
          reversibility := ReversibilityLevel.fully_reversible })
  | CtxOp.modify_file path new_content =>
      match fs path with
      | none => none
      | some before =>
          some (fs.write path new_content,
            { job_id := job_id, step_name := step_name,
              artifact_type := ArtifactType.file_modify, target := path,
              before_state := some before, after_state := some new_content,
              status := ArtifactStatus.created,
              reversibility := ReversibilityLevel.fully_reversible })
  | CtxOp.delete_file path =>
      match fs path with
      | none => none
      | some before =>
          some (fs.remove path,
            { job_id := job_id, step_name := step_name,
              artifact_type := ArtifactType.file_delete, target := path,
              before_state := some before,
              status := ArtifactStatus.created,
              reversibility := ReversibilityLevel.fully_reversible })
  | CtxOp.move_file source dest =>
      if !(fs.pathExists source) then none
      else if fs.pathExists dest then none
      else some (fs.rename source dest,
        { job_id := job_id, step_name := step_name,
          artifact_type := ArtifactType.file_move, target := dest,
          before_state := some source, after_state := some dest,
          status := ArtifactStatus.created,
          reversibility := ReversibilityLevel.fully_reversible })
  | CtxOp.update_frontmatter path updates =>
      match fs path with
      | none => none
      | some content =>
          let pf := parseFrontmatter content
          let after := dictMerge pf.1 updates
          some (fs.write path (buildFrontmatter after ++ pf.2),
            { job_id := job_id, step_name := step_name,
              artifact_type := ArtifactType.frontmatter_update,
              target := path,
              before_state := some (jsonDumpsFM pf.1),
              after_state := some (jsonDumpsFM after),
              status := ArtifactStatus.created,
              reversibility := ReversibilityLevel.fully_reversible })
  | CtxOp.record_api_call service action response reversible =>
      some (fs,
        if reversible then
          { job_id := job_id, step_name := step_name,
            artifact_type := ArtifactType.external_api_create,
            target := service ++ ":" ++ action,
            after_state := some response,
            status := ArtifactStatus.created,
            reversibility := ReversibilityLevel.partially_reversible }
        else
          { job_id := job_id, step_name := step_name,
            artifact_type := ArtifactType.external_api_create,
            target := service ++ ":" ++ action,
            after_state := some response,
            status := ArtifactStatus.irreversible,
            reversibility := ReversibilityLevel.irreversible })

/-- Model of `ExecutionContext._revert_artifact`: delete what was created,
restore the `before` content, move back, re-emit the prior frontmatter.
The `file_move` branch checks Python truthiness of
`before_state`/`after_state` (both must be non-`None` and non-empty) and
only whether the *destination* still exists — it never checks whether the
original source path is occupied.  The `frontmatter_update` branch
re-reads the file, keeps its current body, and rebuilds it with the
`before` frontmatter mapping — re-emitting canonically rather than
restoring the original bytes.  External-API artifacts are never
auto-reverted. -/
def revertArtifact (fs : FS) (a : Artifact) : FS :=
  match a.artifact_type with
  | ArtifactType.file_create =>
      if fs.pathExists a.target then fs.remove a.target else fs
  | ArtifactType.file_modify =>
      match a.before_state with
      | some before => fs.write a.target before
      | none => fs
  | ArtifactType.file_delete =>
      match a.before_state with
      | some before => fs.write a.target before
      | none => fs
  | ArtifactType.file_move =>
      match a.before_state, a.after_state with
      | some source, some dest =>
          if source.isEmpty || dest.isEmpty then fs
          else if fs.pathExists dest then fs.rename dest source else fs
      | _, _ => fs
  | ArtifactType.frontmatter_update =>
      match a.before_state with
      | none => fs
      | some bs =>
          if bs.isEmpty then fs
          else if fs.pathExists a.target then
            match fs a.target, jsonLoadsFM bs with
            | some content, some before_fm =>
                fs.write a.target
                  (buildFrontmatter before_fm ++ (parseFrontmatter content).2)
            | _, _ => fs
          else fs
  | _ => fs

/-- Running `process`: perform the operations in order, buffering each
operation's artifact in the context's pending list.  Returns the file
system, the pending artifacts in insertion order, and whether an operation
raised (which stops the run there). -/
def runCtxOps (job_id step_name : String) :
    FS → List CtxOp → FS × List Artifact × Bool
  | fs, [] => (fs, [], false)
  | fs, op :: rest =>
      match applyOp job_id step_name fs op with
      | none => (fs, [], true)
      | some (fs', a) =>
          let r := runCtxOps job_id step_name fs' rest
          (r.1, a :: r.2.1, r.2.2)

/-- Model of `ExecutionContext.rollback`: revert the pending artifacts in reverse
insertion order. -/
def rollbackFS (fs : FS) (pending : List Artifact) : FS :=
  pending.reverse.foldl revertArtifact fs

/-- Model of `JobExecutor._do_execute` at the file-system/artifact-store level, for
a processor whose `process` performs `ops` and then raises iff `endRaise`
(a failing operation raises inside the context too).  On the exception
path `__aexit__` rolls the pending artifacts back (reverse insertion
order) and the save loop after the context block is never reached; on
success the context auto-commit persists the pending artifacts and the
executor's save loop re-saves the same rows (upsert by id — a no-op
modelled by a single append).  The final flag records whether the step
failed. -/
def doExecuteFS (job_id step_name : String) (fs : FS)
    (store : List Artifact) (ops : List CtxOp) (endRaise : Bool) :
    FS × List Artifact × Bool :=
  let r := runCtxOps job_id step_name fs ops
  if r.2.2 || endRaise then
    (rollbackFS r.1 r.2.1, store, true)
  else
    (r.1, store ++ r.2.1, false)

/-! ## Claim C2: context atomicity -/

/-- Reverting the artifact of a succeeded non-frontmatter operation
restores the file system that the operation ran on.  (An
`update_frontmatter` operation is excluded: its revert re-emits the prior
frontmatter mapping canonically, which need not reproduce the original
bytes — see the C2 counterexample.) -/
lemma applyOp_revert (job_id step_name : String) (fs fs' : FS)
    (op : CtxOp) (a : Artifact) (hwf : op.wellFormed = true)
    (hnf : op.isFrontmatter = false)
    (h : applyOp job_id step_name fs op = some (fs', a)) :
    revertArtifact fs' a = fs := by
  cases op with
  | create_file path content =>
    rw [applyOp] at h
    by_cases hex : fs.pathExists path = true
    · rw [if_pos hex] at h
      cases h
    · rw [if_neg hex] at h
      injection h with h1
      rw [Prod.mk.injEq] at h1
      obtain ⟨rfl, rfl⟩ := h1
      unfold revertArtifact
      have hex' : (fs.write path content).pathExists path = true := by
        simp [FS.write, FS.pathExists]
      rw [if_pos hex']
      funext q
      simp only [FS.remove, FS.write]
      by_cases hq : q = path
      · rw [if_pos hq, hq]
        unfold FS.pathExists at hex
        cases hfsq : fs path
        · rfl
        · rw [hfsq] at hex
          simp at hex
      · rw [if_neg hq, if_neg hq]
  | modify_file path new_content =>
    rw [applyOp] at h
    cases hfs : fs path with
    | none =>
      rw [hfs] at h
      cases h
    | some before =>
      rw [hfs] at h
      injection h with h1
      rw [Prod.mk.injEq] at h1
      obtain ⟨rfl, rfl⟩ := h1
      unfold revertArtifact
      funext q
      simp only [FS.write]
      by_cases hq : q = path
      · rw [if_pos hq, hq, hfs]
      · rw [if_neg hq, if_neg hq]
  | delete_file path =>
    rw [applyOp] at h
    cases hfs : fs path with
    | none =>
      rw [hfs] at h
      cases h
    | some before =>
      rw [hfs] at h
      injection h with h1
      rw [Prod.mk.injEq] at h1
      obtain ⟨rfl, rfl⟩ := h1
      unfold revertArtifact
      funext q
      simp only [FS.write, FS.remove]
      by_cases hq : q = path
      · rw [if_pos hq, hq, hfs]
      · rw [if_neg hq, if_neg hq]
  | move_file source dest =>
    rw [applyOp] at h
    unfold CtxOp.wellFormed at hwf
    rw [Bool.and_eq_true, Bool.not_eq_true', Bool.not_eq_true'] at hwf
    obtain ⟨hs, hd⟩ := hwf
    by_cases hsrc : fs.pathExists source = true
    · rw [if_neg (by rw [hsrc]; simp)] at h
      by_cases hdst : fs.pathExists dest = true
      · rw [if_pos hdst] at h
        cases h
      · rw [if_neg hdst] at h
        injection h with h1
        rw [Prod.mk.injEq] at h1
        obtain ⟨rfl, rfl⟩ := h1
        show (if (source.isEmpty || dest.isEmpty) = true then
                fs.rename source dest
              else if (fs.rename source dest).pathExists dest = true then
                (fs.rename source dest).rename dest source
              else fs.rename source dest) = fs
        rw [if_neg (by rw [hs, hd]; simp)]
        have hex : (fs.rename source dest).pathExists dest = true := by
          simp [FS.rename, FS.pathExists]
          exact hsrc
        rw [if_pos hex]
        funext q
        simp only [FS.rename]
        by_cases hq1 : q = source
        · rw [if_pos hq1, hq1]
          simp
        · rw [if_neg hq1]
          by_cases hq2 : q = dest
          · rw [if_pos hq2, hq2]
            unfold FS.pathExists at hdst
            cases hfd : fs dest
            · rfl
            · rw [hfd] at hdst
              simp at hdst
          · rw [if_neg hq2, if_neg hq2, if_neg hq1]
    · have hsrc' : fs.pathExists source = false := Bool.eq_false_iff.mpr hsrc
      rw [if_pos (by rw [hsrc']; simp)] at h
      cases h
  | update_frontmatter path updates =>
    simp [CtxOp.isFrontmatter] at hnf
  | record_api_call service action response reversible =>
    rw [applyOp] at h
    cases reversible
    · rw [if_neg Bool.false_ne_true] at h
      injection h with h1
      rw [Prod.mk.injEq] at h1
      obtain ⟨rfl, rfl⟩ := h1
      rfl
    · rw [if_pos rfl] at h
      injection h with h1
      rw [Prod.mk.injEq] at h1
      obtain ⟨rfl, rfl⟩ := h1
      rfl

/-- Rolling back the pending artifacts in reverse insertion order restores
the file system the run started from, when no operation is an
`update_frontmatter`. -/
lemma runCtxOps_rollback (job_id step_name : String) :
    ∀ (ops : List CtxOp) (fs : FS), ops.all CtxOp.wellFormed = true →
      ops.all (fun op => !op.isFrontmatter) = true →
      rollbackFS (runCtxOps job_id step_name fs ops).1
        (runCtxOps job_id step_name fs ops).2.1 = fs := by
  intro ops
  induction ops with
  | nil =>
    intro fs _ _
    rfl
  | cons op rest ih =>
    intro fs hwf hnf
    rw [List.all_cons, Bool.and_eq_true] at hwf hnf
    obtain ⟨hwf1, hwf2⟩ := hwf
    obtain ⟨hnf1, hnf2⟩ := hnf
    rw [Bool.not_eq_true'] at hnf1
    rcases happ : applyOp job_id step_name fs op with _ | ⟨fs', a⟩
    · simp [runCtxOps, happ, rollbackFS]
    · have heq : runCtxOps job_id step_name fs (op :: rest)
          = ((runCtxOps job_id step_name fs' rest).1,
             a :: (runCtxOps job_id step_name fs' rest).2.1,
             (runCtxOps job_id step_name fs' rest).2.2) := by
        simp [runCtxOps, happ]
      rw [heq]
      show rollbackFS (runCtxOps job_id step_name fs' rest).1
        (a :: (runCtxOps job_id step_name fs' rest).2.1) = fs
      unfold rollbackFS
      rw [List.reverse_cons, List.foldl_append, List.foldl_cons,
        List.foldl_nil]
      have hip := ih fs' hwf2 hnf2
      unfold rollbackFS at hip
      rw [hip]
      exact applyOp_revert job_id step_name fs fs' op a hwf1 hnf1 happ

/-- C2 amended.  When `process` raises inside the execution context —
either a context operation fails its precondition or the processor raises
after its operations (`endRaise`) — then for every operation sequence no
artifact recorded during the step reaches the artifact store and the step
fails; and the rollback, which applies each pending artifact's reverter in
reverse insertion order, restores the pre-step file system byte-for-byte
whenever the succeeded operations are file creates, modifies, deletes,
moves or API records.  An `update_frontmatter` operation is not undone at
the byte level: its revert re-emits the prior frontmatter mapping
canonically (see the counterexample), so the byte-restoration conclusion
necessarily excludes it. -/
theorem C2_context_atomicity (job_id step_name : String) (fs : FS)
    (store : List Artifact) (ops : List CtxOp) (endRaise : Bool)
    (hraise : (runCtxOps job_id step_name fs ops).2.2 = true
      ∨ endRaise = true) :
    (doExecuteFS job_id step_name fs store ops endRaise).2.1 = store ∧
    (doExecuteFS job_id step_name fs store ops endRaise).2.2 = true ∧
    (ops.all CtxOp.wellFormed = true →
     ops.all (fun op => !op.isFrontmatter) = true →
     (doExecuteFS job_id step_name fs store ops endRaise).1 = fs) := by
  unfold doExecuteFS
  rw [if_pos (by rcases hraise with h | h <;> rw [h] <;> simp)]
  refine ⟨rfl, rfl, ?_⟩
  intro hwf hnf
  exact runCtxOps_rollback job_id step_name ops fs hwf hnf

/-- A file whose opening frontmatter delimiter line carries a trailing
space: `_parse_frontmatter` accepts it (it strips delimiter lines), but
every rebuild emits the canonical `---` line. -/
def fsC2 : FS := fun p =>
  if p = "/n.md" then some "--- \nfoo: 1\n---\nbody" else none

/-- One succeeded `update_frontmatter` operation. -/
def opsC2 : List CtxOp :=
  [CtxOp.update_frontmatter "/n.md" [("bar", "2")]]

/-- C2 counterexample.  The `update_frontmatter` operation succeeds, then
the processor raises.  No artifact is persisted, the step fails, and the
rollback runs over the recorded artifacts in reverse insertion order — yet
the succeeded operation is NOT undone: the file originally began with the
delimiter line `--- ` (trailing space) and after the rollback begins with
`---`, because the revert rebuilds the file from the prior frontmatter
mapping instead of restoring the original bytes. -/
theorem C2_counterexample :
    (runCtxOps "j" "s" fsC2 opsC2).2.2 = false ∧
    (doExecuteFS "j" "s" fsC2 [] opsC2 true).2.1 = [] ∧
    (doExecuteFS "j" "s" fsC2 [] opsC2 true).2.2 = true ∧
    fsC2 "/n.md" = some "--- \nfoo: 1\n---\nbody" ∧
    (doExecuteFS "j" "s" fsC2 [] opsC2 true).1 "/n.md"
      = some "---\nfoo: 1\n---\nbody" := by
  refine ⟨by decide, by decide, by decide, by decide, by decide⟩

/-- Witness for the amended C2: two file operations succeed, then the
processor raises; the store is untouched, the step fails, and the file
system is restored. -/
theorem C2_witness :
    (doExecuteFS "job1" "step1" (fun _ => none) []
        [CtxOp.create_file "/out/a.md" "x",
         CtxOp.move_file "/out/a.md" "/out/b.md"] true).2.1 = [] ∧
    (doExecuteFS "job1" "step1" (fun _ => none) []
        [CtxOp.create_file "/out/a.md" "x",
         CtxOp.move_file "/out/a.md" "/out/b.md"] true).2.2 = true ∧
    (doExecuteFS "job1" "step1" (fun _ => none) []
        [CtxOp.create_file "/out/a.md" "x",
         CtxOp.move_file "/out/a.md" "/out/b.md"] true).1
      = (fun _ => none) :=
  have h := C2_context_atomicity "job1" "step1" (fun _ => none) []
    [CtxOp.create_file "/out/a.md" "x",
     CtxOp.move_file "/out/a.md" "/out/b.md"] true (Or.inr rfl)
  ⟨h.1, h.2.1, h.2.2 (by decide) (by decide)⟩

/-! ## Claim C5: reverting a `file_move` artifact -/

/-- C5 amended.  Reverting a `file_move` artifact renames the destination
back to the original source path whenever the destination still exists,
without ever checking whether the source path is occupied: an occupied
original path is silently overwritten with the destination's content, and
no `RevertConflict` error exists anywhere in the code. -/
theorem C5_move_revert_overwrites_occupied_source (fs : FS) (a : Artifact)
    (src dst : String)
    (hty : a.artifact_type = ArtifactType.file_move)
    (hb : a.before_state = some src) (ha : a.after_state = some dst)
    (hs : src.isEmpty = false) (hd : dst.isEmpty = false)
    (hex : fs.pathExists dst = true) :
    revertArtifact fs a = fs.rename dst src ∧
    revertArtifact fs a src = fs dst := by
  obtain ⟨jid, sn, ty, tg, bs, as_, st, rv⟩ := a
  simp only at hty hb ha
  subst hty
  subst hb
  subst ha
  have hmain : revertArtifact fs
      { job_id := jid, step_name := sn,
        artifact_type := ArtifactType.file_move, target := tg,
        before_state := some src, after_state := some dst,
        status := st, reversibility := rv } = fs.rename dst src := by
    show (if (src.isEmpty || dst.isEmpty) = true then fs
          else if fs.pathExists dst = true then fs.rename dst src else fs)
        = fs.rename dst src
    rw [if_neg (by rw [hs, hd]; simp), if_pos hex]
  refine ⟨hmain, ?_⟩
  rw [hmain]
  show (if src = src then fs dst else if src = dst then none else fs src)
      = fs dst
  rw [if_pos rfl]

/-- File system for the C5 counterexample: the original path `orig` is
occupied again and the moved file sits at `moved`. -/
def fsC5 : FS := fun p =>
  if p = "orig" then some "OLD" else if p = "moved" then some "NEW" else none

/-- The `file_move` artifact recorded for a move `orig → moved`. -/
def artC5 : Artifact :=
  { job_id := "j", step_name := "s",
    artifact_type := ArtifactType.file_move, target := "moved",
    before_state := some "orig", after_state := some "moved",
    status := ArtifactStatus.created,
    reversibility := ReversibilityLevel.fully_reversible }

/-- C5 counterexample.  The original path `orig` is occupied (content
`OLD`), yet reverting the move does not abort: it silently renames `moved`
back over `orig`, which afterwards holds `NEW` — the occupied original
path was overwritten and no error was surfaced. -/
theorem C5_counterexample :
    fsC5 "orig" = some "OLD" ∧
    revertArtifact fsC5 artC5 "orig" = some "NEW" ∧
    revertArtifact fsC5 artC5 "moved" = none := by
  refine ⟨by decide, by decide, by decide⟩

/-- Witness for the amended C5 at the concrete file system `fsC5`. -/
theorem C5_witness :
    artC5.artifact_type = ArtifactType.file_move ∧
    artC5.before_state = some "orig" ∧
    artC5.after_state = some "moved" ∧
    fsC5.pathExists "moved" = true ∧
    (revertArtifact fsC5 artC5 = fsC5.rename "moved" "orig" ∧
     revertArtifact fsC5 artC5 "orig" = fsC5 "moved") :=
  ⟨by decide, by decide, by decide, by decide,
    C5_move_revert_overwrites_occupied_source fsC5 artC5 "orig" "moved"
      (by decide) (by decide) (by decide) (by decide) (by decide)
      (by decide)⟩

/-! ## Executor: `revert_step` (src/core/engine/executor.py lines 231-283) -/

/-- Model of `JobExecutor.revert_step`, tracked on the updated `StepResult`.
`artifactRevertErr a = some e` models an exception raised while reverting
artifact `a` (from `_revert_artifact` or the store's `mark_reverted`);
`procRevertErr` models an exception from the processor's custom `revert`
hook.  Both are caught: the error is written to `revert_error` and the
code continues.  Returns `(return value, updated result if one was
found)`. -/
def revertStep (reg : Registry)
    (artifactRevertErr : Artifact → Option String)
    (procRevertErr : Option String) (job : Job) (step_name : String) :
    Bool × Option StepResult :=
  match reg.get step_name with
  | none => (false, none)
  | some _ =>
      match job.get_step_result step_name with
      | none => (false, none)
      | some result =>
          if !result.can_revert then (false, none)
          else
            let r1 := result.artifacts.reverse.foldl
              (fun acc a =>
                if a.can_revert then
                  match artifactRevertErr a with
                  | some e => { acc with revert_error := some e }
                  | none => acc
                else acc) result
            let r2 := match procRevertErr with
              | some e => { r1 with revert_error := some e }
              | none => r1
            (true, some r2.mark_reverted)

/-! ## Claim C6: `revert_step` outcome -/

/-- C6 amended.  Once the step is located and revertable, `revert_step`
always returns `True` and marks the `StepResult` `reverted` — even when
artifact reverts or the processor's revert hook fail.  Failures only
populate `revert_error`; the result is never left in status `failed`. -/
theorem C6_revert_step_always_marks_reverted (reg : Registry)
    (artifactRevertErr : Artifact → Option String)
    (procRevertErr : Option String) (job : Job) (step_name : String)
    (p : ProcSpec) (r : StepResult)
    (hreg : reg.get step_name = some p)
    (hres : job.get_step_result step_name = some r)
    (hcan : r.can_revert = true) :
    ∃ r', revertStep reg artifactRevertErr procRevertErr job step_name
        = (true, some r') ∧ r'.status = StepStatus.reverted := by
  unfold revertStep
  rw [hreg, hres]
  dsimp only
  rw [hcan, if_neg (by simp)]
  exact ⟨_, rfl, rfl⟩

/-- Registry for the C6 counterexample: processor `s` is registered. -/
def regC6 : Registry :=
  { processors := [("s", { name := "s" })],
    definitions := [("s", { name := "s" })] }

/-- A created, fully reversible artifact of step `s`. -/
def artC6 : Artifact :=
  { job_id := "j", step_name := "s",
    artifact_type := ArtifactType.file_create, target := "/f",
    after_state := some "x",
    status := ArtifactStatus.created,
    reversibility := ReversibilityLevel.fully_reversible }

/-- A completed result for step `s` owning `artC6`. -/
def resC6 : StepResult :=
  { job_id := "j", step_name := "s", status := StepStatus.completed,
    artifacts := [artC6] }

/-- Job for the C6 counterexample. -/
def jobC6 : Job := { id := "j", history := [resC6] }

/-- C6 counterexample.  The single artifact's revert raises (`boom`), so by
the claim the result should stay `failed` with `revert_error` populated and
not be marked reverted; instead `revert_step` records the error, still
marks the result `reverted`, and returns `True`. -/
theorem C6_counterexample :
    revertStep regC6 (fun _ => some "boom") none jobC6 "s"
      = (true, some { job_id := "j", step_name := "s",
                      status := StepStatus.reverted,
                      artifacts := [artC6],
                      revert_error := some "boom" }) := by
  decide

/-- Witness for the amended C6, with a failing artifact revert and a
failing processor hook. -/
theorem C6_witness :
    regC6.get "s" = some { name := "s" } ∧
    jobC6.get_step_result "s" = some resC6 ∧
    resC6.can_revert = true ∧
    (∃ r', revertStep regC6 (fun _ => some "boom") (some "hook") jobC6 "s"
        = (true, some r') ∧ r'.status = StepStatus.reverted) :=
  ⟨by decide, by decide, by decide,
    C6_revert_step_always_marks_reverted regC6 (fun _ => some "boom")
      (some "hook") jobC6 "s" { name := "s" } resC6
      (by decide) (by decide) (by decide)⟩

/-! ## Executor: `execute_step` entry (executor.py lines 82-129) -/

/-- The error raised by `execute_step` when the processor is missing
(`ValueError: Processor '...' not found`). -/
inductive ExecError where
  | unknownProcessor (name : String)
deriving DecidableEq, Repr

/-- Model of `JobExecutor.execute_step` up to the branch taken.
`requiresUserInput` is the oracle for the processor's
`requires_user_input`; `doExec` abstracts `_do_execute` (it receives the
job and tracking result as they are at the hand-off and yields the final
job, result and its own store saves).  The returned list records every
`job_store.save` call, in order. -/
def executeStep (reg : Registry)
    (requiresUserInput : String → Job → Bool)
    (doExec : Job → StepResult → Job × StepResult × List Job)
    (job : Job) (step_name : String) :
    Except ExecError (Job × StepResult × List Job) :=
  match reg.get step_name with
  | none => Except.error (ExecError.unknownProcessor step_name)
  | some processor =>
      let cr := canRunStep reg job step_name
      if !cr.1 then
        let result : StepResult := { job_id := job.id, step_name := step_name }
        Except.ok (job,
          result.skip (if cr.2 == "" then none else some cr.2), [])
      else
        let result := StepResult.start
          { job_id := job.id, step_name := step_name }
        let job1 := job.start_processing step_name
        if processor.requires_input == "always"
            || (processor.requires_input == "conditional"
                && requiresUserInput step_name job1) then
          let result1 := result.await_input
          let job2 := (job1.await_input step_name).add_step_result result1
          Except.ok (job2, result1, [job1, job2])
        else
          let d := doExec job1 result
          Except.ok (d.1, d.2.1, job1 :: d.2.2)

/-! ## Claim C9: skipped steps leave the job untouched -/

/-- C9 amended.  When the processor exists and `can_run_step` returns
false (step already completed or dependencies missing), `execute_step`
returns a `StepResult` in status `skipped` carrying the reason, the job
value it returns is exactly the input job (status, `current_step`,
history and data bag untouched; the skipped result is not appended), and
nothing is persisted.  When the processor is missing, however,
`can_run_step` is also false but `execute_step` raises `UnknownProcessor`
instead of returning a skipped result. -/
theorem C9_skip_leaves_job_unchanged (reg : Registry)
    (requiresUserInput : String → Job → Bool)
    (doExec : Job → StepResult → Job × StepResult × List Job)
    (job : Job) (step_name : String) (p : ProcSpec)
    (hreg : reg.get step_name = some p)
    (hcr : (canRunStep reg job step_name).1 = false) :
    ∃ r, executeStep reg requiresUserInput doExec job step_name
        = Except.ok (job, r, []) ∧
      r.status = StepStatus.skipped ∧
      r.step_name = step_name ∧
      ((canRunStep reg job step_name).2 ≠ "" →
        ("skip_reason", (canRunStep reg job step_name).2)
          ∈ r.output_data) := by
  unfold executeStep
  rw [hreg]
  dsimp only
  rw [hcr, if_pos (show (!false) = true from rfl)]
  refine ⟨_, rfl, rfl, rfl, ?_⟩
  intro hne
  rw [if_neg (fun hc => hne (beq_iff_eq.mp hc))]
  unfold StepResult.skip
  simp

/-- Job for the C9 theorems: step `a` already completed. -/
def jobC9 : Job :=
  { id := "j9",
    history := [{ job_id := "j9", step_name := "a",
                  status := StepStatus.completed }] }

/-- Registry for the C9 theorems: only `a` is registered. -/
def regC9 : Registry :=
  { processors := [("a", { name := "a" })],
    definitions := [("a", { name := "a" })] }

/-- C9 counterexample.  For an unregistered step name, `can_run_step`
returns false, but `execute_step` raises `UnknownProcessor` instead of
returning a skipped `StepResult`, so the claim as stated (quantified over
every step name) fails. -/
theorem C9_counterexample :
    (canRunStep regC9 jobC9 "ghost").1 = false ∧
    executeStep regC9 (fun _ _ => false) (fun j r => (j, r, [])) jobC9
        "ghost"
      = Except.error (ExecError.unknownProcessor "ghost") :=
  ⟨by decide, rfl⟩

/-- Witness for the amended C9: step `a` is registered but already
completed, so it is skipped and the job is returned unchanged. -/
theorem C9_witness :
    regC9.get "a" = some { name := "a" } ∧
    (canRunStep regC9 jobC9 "a").1 = false ∧
    (∃ r, executeStep regC9 (fun _ _ => false) (fun j r => (j, r, []))
        jobC9 "a" = Except.ok (jobC9, r, []) ∧
      r.status = StepStatus.skipped ∧
      r.step_name = "a" ∧
      ((canRunStep regC9 jobC9 "a").2 ≠ "" →
        ("skip_reason", (canRunStep regC9 jobC9 "a").2) ∈ r.output_data)) :=
  ⟨by decide, by decide,
    C9_skip_leaves_job_unchanged regC9 (fun _ _ => false)
      (fun j r => (j, r, [])) jobC9 "a" { name := "a" }
      (by decide) (by decide)⟩

end NoteFlow
